import Mathlib

/-!
Verification of the hyperseg dynamic patch-convolution model
(src/models/hyperseg_v1_0_unify.py) against its specification.

The Python source is embedded shallowly:
* integer arithmetic is modelled with Nat/Int (Python `//` on possibly
  negative ints is floor division, modelled with Int.fdiv);
* the few float computations (`units / sum(out_features)`, `np.ceil(x/base)`,
  `0.5`, `round`) are modelled exactly over ℚ, which agrees with IEEE doubles
  on all concrete inputs used below;
* tensors are modelled either by their shapes (for the shape/raise claims) or
  as channel-indexed functions into ℚ (for the value-level claims);
* the mutable decoder state (coordinate buffers, the per-pass weight variable)
  is modelled by explicit state passing.
-/

/-! ### gather_results (HyperGen.gather_results, lines 64-71) -/

/-- The string constant compared against `self.inference_gather`. -/
def meanStr : String := "mean"

/-- HyperGen.gather_results: `x` is asserted non-None (modelled by a
non-optional argument); if `y is None` return `x`; if the configured gather
mode equals "mean" return `(x + y) * 0.5`, otherwise `torch.max(x, y)`
elementwise.  Tensors are modelled as elementwise ℚ-valued functions. -/
def gather_results (inference_gather : String) (x : ℕ → ℚ) (y : Option (ℕ → ℚ)) :
    ℕ → ℚ :=
  match y with
  | none => x
  | some y => if inference_gather = meanStr then fun i => (x i + y i) * (1 / 2)
              else fun i => max (x i) (y i)

/-! ### next_multiply (line 464) and WeightLayer (lines 287-309) -/

/-- next_multiply: `type(x)(np.ceil(x / base) * base)`, modelled with exact
rational ceiling (which agrees with the float computation on integers). -/
def next_multiply (x base : ℕ) : ℕ :=
  (Int.toNat ⌈(x : ℚ) / (base : ℚ)⌉) * base

/-- The construction-time state of an initialized WeightLayer after
`init_signal2weights(signal_channels, signal_index, groups)`. -/
structure WeightLayerState where
  target_params : ℕ
  signal_channels : ℕ
  signal_index : ℕ
  groups : ℕ

/-- `s[:, signal_index : signal_index + signal_channels]`: channel slice of a
(channel, position)-indexed tensor.  (The channel count of the slice is
`signal_channels`; values beyond it are junk that the convolution never
reads.) -/
def sliceSignal (idx : ℕ) (s : ℕ → ℕ → ℚ) : ℕ → ℕ → ℚ :=
  fun c p => s (idx + c) p

/-- A 1x1 grouped convolution without bias (`nn.Conv2d(cin, cout, 1,
bias=False, groups=g)`) applied pointwise at every spatial position `p`:
output channel `o` is the dot product of row `o` of the weight with the
`cin / g` input channels of the group `o / (cout / g)`. -/
def conv1x1_grouped (cin cout g : ℕ) (W : ℕ → ℕ → ℚ) (x : ℕ → ℕ → ℚ) :
    ℕ → ℕ → ℚ :=
  fun o p => ∑ j ∈ Finset.range (cin / g), W o j * x ((o / (cout / g)) * (cin / g) + j) p

/-- WeightLayer.apply_signal2weights (line 304): slice the signal channels,
apply the stored 1x1 grouped convolution whose output width is
`next_multiply(target_params, groups)`, then truncate with
`[:, :target_params]`.  The result is a (channel count, data) pair; slicing a
tensor of `wc` channels to `[:t]` yields `min t wc` channels. -/
def apply_signal2weights (wl : WeightLayerState) (W : ℕ → ℕ → ℚ) (s : ℕ → ℕ → ℚ) :
    ℕ × (ℕ → ℕ → ℚ) :=
  let weight_channels := next_multiply wl.target_params wl.groups
  (min wl.target_params weight_channels,
   conv1x1_grouped wl.signal_channels weight_channels wl.groups W
     (sliceSignal wl.signal_index s))

/-! ### HyperPatchInvertedResidual (lines 312-389) -/

/-- Python 3 `round` on a rational: round half to even. -/
def pyRound (q : ℚ) : ℤ :=
  let f := ⌊q⌋
  if q - f < 1 / 2 then f
  else if (1 : ℚ) / 2 < q - f then f + 1
  else if f % 2 = 0 then f else f + 1

/-- Construction parameters of a HyperPatchInvertedResidual. -/
structure HPIR where
  in_nc : ℕ
  out_nc : ℕ
  kernel_size : ℕ × ℕ
  stride : ℕ
  expand_ratio : ℚ

/-- `self.hidden_dim = int(round(in_nc * expand_ratio))` (line 325). -/
def HPIR.hidden_dim (c : HPIR) : ℕ :=
  (pyRound ((c.in_nc : ℚ) * c.expand_ratio)).toNat

/-- `self.use_res_connect = self.stride == 1 and in_nc == out_nc` (line 326). -/
def HPIR.use_res_connect (c : HPIR) : Bool :=
  c.stride == 1 && c.in_nc == c.out_nc

/-- The weight range table built in `__init__` (lines 333-340): starts at 0,
then accumulates `in_nc * hidden_dim`, `np.prod((hidden_dim,) + kernel_size)`
and `hidden_dim * out_nc`. -/
def HPIR.ranges (c : HPIR) : List ℕ :=
  let r1 := c.in_nc * c.hidden_dim
  let r2 := r1 + c.hidden_dim * c.kernel_size.1 * c.kernel_size.2
  let r3 := r2 + c.hidden_dim * c.out_nc
  [0, r1, r2, r3]

/-- `self.hyper_params` after the three `+=` steps of `__init__`. -/
def HPIR.hyper_params (c : HPIR) : ℕ :=
  c.in_nc * c.hidden_dim + c.hidden_dim * c.kernel_size.1 * c.kernel_size.2
    + c.hidden_dim * c.out_nc

/-- HyperPatchInvertedResidual.forward (lines 385-389): `x + self.conv(x, s)`
when `use_res_connect` else `self.conv(x, s)`.  The three-stage conv is the
block method `conv`, taken here as an argument so that the theorem speaks
about the gating exactly as the source does. -/
def HPIR.forward {T S : Type} [Add T] (c : HPIR) (conv : T → S → T)
    (x : T) (s : S) : T :=
  if c.use_res_connect then x + conv x s else conv x s

/-! ### Coordinate cache (MultiScaleDecoder, lines 189-220) -/

/-- `torch.linspace(-1, 1, steps)[i]` as an exact rational. -/
def linspaceVal (steps i : ℕ) : ℚ :=
  if steps ≤ 1 then -1 else -1 + 2 * i / (steps - 1)

/-- The (1, 2, h, w) coordinate grid
`torch.stack(torch.meshgrid(y, x)[::-1], dim=0).unsqueeze(0)`: channel 0
holds the x coordinates (linspace over `w`), channel 1 the y coordinates
(linspace over `h`).  This is the body shared by
`cache_image_coordinates` (lines 204-209) and the miss branch of
`get_image_coordinates` (lines 216-218), which are textually identical. -/
def mkCoordGrid (h w : ℕ) : ℕ → ℕ → ℕ → ℚ :=
  fun ch i j => if ch = 0 then linspaceVal w j else if ch = 1 then linspaceVal h i else 0

/-- The registered coordinate buffers, keyed by (h, w).  (The attribute name
built from h and w with an underscore between the decimal digits determines
(h, w) uniquely, so the pair is a faithful key.) -/
def CoordCache : Type := List ((ℕ × ℕ) × (ℕ → ℕ → ℕ → ℚ))

/-- `.expand(b, -1, -1, -1)`: broadcast a (1,2,h,w) grid to batch size `b`
(every batch index below `b` sees the same data). -/
def expandGrid (b : ℕ) (g : ℕ → ℕ → ℕ → ℚ) : ℕ → ℕ → ℕ → ℕ → ℚ :=
  fun bi ch i j => if bi < b then g ch i j else 0

/-- MultiScaleDecoder.get_image_coordinates (lines 211-220) as a state
transition on the buffer table: if the coord buffer attribute for (h, w) exists, return the
stored grid expanded to the batch size, otherwise compute the grid on the
spot and return it expanded.  Neither branch modifies the stored state. -/
def get_image_coordinates (cache : CoordCache) (b h w : ℕ) :
    (ℕ → ℕ → ℕ → ℕ → ℚ) × CoordCache :=
  match List.find? (fun e => e.1 == (h, w)) cache with
  | some e => (expandGrid b e.2, cache)
  | none => (expandGrid b (mkCoordGrid h w), cache)

/-! ### Shape semantics of HyperPatch.forward (lines 497-527) -/

/-- A rank-4 tensor shape (batch, channels, height, width). -/
structure Shape4 where
  b : ℕ
  c : ℕ
  h : ℕ
  w : ℕ
deriving DecidableEq, Repr

/-- Construction parameters of the inner MetaConv2d of a HyperPatchConv2d. -/
structure MetaConvCfg where
  in_channels : ℕ
  out_channels : ℕ
  kernel : ℕ
  stride : ℕ
  groups : ℕ
deriving DecidableEq, Repr

/-- Modelled from the spec: MetaConv2d (imported from
models/layers/meta_conv.py, which is not under src/) is the inner module of
the patch-convolution engine.  Per spec section 4.3 steps 3-5 it reshapes the
per-patch weight rows into standard kernel layout
`(rows * outC, inC / groups, k, k)` and runs one ordinary convolution with
`groups = rows * groups`, so each flattened-batch element is convolved with
its own kernel, then restores the per-patch batch layout.  The function
returns the output shape, or `none` where the underlying tensor ops would
raise (channel mismatch, non-divisible groups, a zero total group count
`rows * groups` for the convolution, kernel larger than input, zero stride,
weight-row width not matching the kernel layout). -/
def metaConv2dShape (cfg : MetaConvCfg) (x : Shape4) (wRows wCols : ℕ) :
    Option Shape4 :=
  if cfg.groups = 0 then none
  else if wRows = 0 then none
  else if cfg.in_channels % cfg.groups ≠ 0 then none
  else if wCols ≠ cfg.out_channels * (cfg.in_channels / cfg.groups) * cfg.kernel * cfg.kernel then none
  else if x.b * x.c ≠ wRows * cfg.in_channels then none
  else if (wRows * cfg.out_channels) % (wRows * cfg.groups) ≠ 0 then none
  else if cfg.stride = 0 then none
  else if x.h < cfg.kernel ∨ x.w < cfg.kernel then none
  else some ⟨x.b, cfg.out_channels,
             (x.h - cfg.kernel) / cfg.stride + 1,
             (x.w - cfg.kernel) / cfg.stride + 1⟩

/-- Shape semantics of HyperPatch.forward (lines 514-527) with padding
(padH, padW) and reflect border mode.  Follows the source line by line:
`ph, pw = h // fh, w // fw` (floor division, no divisibility check;
division by a zero grid dimension raises);
`kh, kw = ph + 2*padH, pw + 2*padW`; the weight permute and
`reshape(-1, weight.shape[1])` at line 519 (the reshape raises when the
weight channel width is 0: inferring -1 on a zero-element tensor is
ambiguous); `F.pad` (reflect requires pad < dim);
`unfold((kh, kw), stride=(ph, pw))` (requires positive strides and kernel
not larger than the padded input) giving `nH * nW` windows per image;
the `reshape(-1, c, kh, kw)` at line 522 into a `(b*nH*nW, c, kh, kw)`
patch batch (raising likewise when the feature channel count is 0); the
inner MetaConv2d; `view(b, fh*fw, -1, ph*pw)` (requires a nonzero known
dimension product and exact divisibility);
`F.fold((h, w), (ph, pw), stride=(ph, pw))` (requires the block count at
stride (ph, pw) to equal `fh * fw`).  Returns `none` exactly where one of
those tensor ops would raise. -/
def hyperPatchForwardShape (padH padW : ℕ) (cfg : MetaConvCfg)
    (x : Shape4) (wt : Shape4) : Option Shape4 :=
  if wt.h = 0 ∨ wt.w = 0 then none
  else
    let fh := wt.h
    let fw := wt.w
    let ph := x.h / fh
    let pw := x.w / fw
    let kh := ph + 2 * padH
    let kw := pw + 2 * padW
    if wt.c = 0 then none
    else if x.h ≤ padH ∨ x.w ≤ padW then none
    else
      let hp := x.h + 2 * padH
      let wp := x.w + 2 * padW
      if ph = 0 ∨ pw = 0 then none
      else if hp < kh ∨ wp < kw then none
      else if x.c = 0 then none
      else
        let nH := (hp - kh) / ph + 1
        let nW := (wp - kw) / pw + 1
        match metaConv2dShape cfg ⟨x.b * (nH * nW), x.c, kh, kw⟩ (x.b * (fh * fw)) wt.c with
        | none => none
        | some y =>
          if x.b * (fh * fw) * (ph * pw) = 0 then none
          else if (y.b * y.c * y.h * y.w) % (x.b * (fh * fw) * (ph * pw)) ≠ 0 then none
          else
            let m := (y.b * y.c * y.h * y.w) / (x.b * (fh * fw) * (ph * pw))
            if ((x.h - ph) / ph + 1) * ((x.w - pw) / pw + 1) ≠ fh * fw then none
            else some ⟨x.b, m, x.h, x.w⟩

/-! ### MultiScaleDecoder.forward weight sourcing (lines 222-249) -/

/-- The decoder data fixed at construction that the forward loop reads:
`levels`, `unify_level`, the precomputed `_ranges` table (lines 145, 175),
the weight blocks and level blocks (as indexed families), the per-level
feature plumbing (`x[-level-1]`, interpolation, concatenations and the
coordinate prepend, abstracted into `feat_input`), and the weight slicing
`w[:, a:b]` (`slice_w`). -/
structure DecoderCfg (T W S : Type) where
  levels : ℕ
  unify_level : ℕ
  ranges : List ℕ
  weight_blocks : ℕ → S → W
  level_blocks : ℕ → T → W → T
  feat_input : ℕ → Option T → T
  slice_w : W → ℕ → ℕ → W

/-- One iteration of the `for level in range(self.levels)` loop of
MultiScaleDecoder.forward.  The state carries the running prediction `p`, the
loop-local Python variable `w` (which survives across iterations), the list
of weight-block invocations performed so far (the index
`min(level, unify_level - 1)` is recorded each time `weight_block(s)` is
executed), and the list of weight tensors fed to the level blocks.  In the
unified regime the slice index is `i = level - unify_level + 1`, a
non-negative integer there, written `level + 1 - unify_level` over ℕ. -/
def msdStep {T W S : Type} (d : DecoderCfg T W S) (s : S)
    (st : Option T × W × List ℕ × List W) (level : ℕ) :
    Option T × W × List ℕ × List W :=
  let p := d.feat_input level st.1
  if level < d.unify_level - 1 then
    let w := d.weight_blocks (min level (d.unify_level - 1)) s
    (some (d.level_blocks level p w), w,
     st.2.2.1 ++ [min level (d.unify_level - 1)], st.2.2.2 ++ [w])
  else
    let w := if level = d.unify_level - 1
             then d.weight_blocks (min level (d.unify_level - 1)) s
             else st.2.1
    let tr := if level = d.unify_level - 1
              then st.2.2.1 ++ [min level (d.unify_level - 1)]
              else st.2.2.1
    let i := level + 1 - d.unify_level
    let wS := d.slice_w w (d.ranges.getD i 0) (d.ranges.getD (i + 1) 0)
    (some (d.level_blocks level p wS), w, tr, st.2.2.2 ++ [wS])

/-- The whole level loop of MultiScaleDecoder.forward, starting from
`p = None`, an uninitialized `w` (modelled by an arbitrary `w0` that the
theorem shows is never consumed when `unify_level ≥ 1`), and empty traces. -/
def msdForward {T W S : Type} (d : DecoderCfg T W S) (s : S) (w0 : W) :
    Option T × W × List ℕ × List W :=
  (List.range d.levels).foldl (msdStep d s) (none, w0, [], [])

/-- A small concrete decoder over integer tensors used to witness the
forward-loop theorem. -/
def sampleDecoder : DecoderCfg ℤ ℤ ℤ where
  levels := 3
  unify_level := 2
  ranges := [0, 5, 9]
  weight_blocks := fun i s => s + i
  level_blocks := fun _ t w => t + w
  feat_input := fun _ p => p.getD 0
  slice_w := fun w a b => w + a + b

/-! ### divide_feature (lines 604-651) -/

/-- Stable insertion of index `i` into an index list kept ascending by the
value `vals[.]`; ties keep the inserted (originally earlier) index first. -/
def insIdxAsc (vals : List ℕ) (i : ℕ) : List ℕ → List ℕ
  | [] => [i]
  | j :: rest =>
    if vals.getD j 0 < vals.getD i 0 then j :: insIdxAsc vals i rest
    else i :: j :: rest

/-- `np.argsort(out_features)`: a permutation of `range(len(vals))` that
sorts `vals` ascending, realized as a stable insertion sort (the ordering by np.argsort
ordering of equal values is unspecified and irrelevant downstream, since
equal values are regrouped). -/
def argsortAsc (vals : List ℕ) : List ℕ :=
  (List.range vals.length).foldr (insIdxAsc vals) []

/-- `groupby` of a run of consecutive indices with equal `vals[.]`:
`[(k, indices[list(g)]) for k, g in groupby(...)]` applied to the sorted
index list.  Each group is (common value, member indices in order). -/
def groupConsec (vals : List ℕ) : List ℕ → List (ℕ × List ℕ)
  | [] => []
  | i :: rest =>
    match groupConsec vals rest with
    | [] => [(vals.getD i 0, [i])]
    | (k, is) :: gs =>
      if vals.getD i 0 = k then (k, i :: is) :: gs
      else (vals.getD i 0, [i]) :: (k, is) :: gs

/-- Stable insertion for `out_feat_groups.sort(key=lambda x: x[0] * len(x[1]),
reverse=True)`: descending by `k * group size`, ties keeping the original
(ascending-value) order. -/
def insGroupDesc (x : ℕ × List ℕ) : List (ℕ × List ℕ) → List (ℕ × List ℕ)
  | [] => [x]
  | y :: rest =>
    if x.1 * x.2.length < y.1 * y.2.length then y :: insGroupDesc x rest
    else x :: y :: rest

/-- The stable descending sort of the feature groups. -/
def sortGroupsDesc (gs : List (ℕ × List ℕ)) : List (ℕ × List ℕ) :=
  gs.foldr insGroupDesc []

/-- The allocation loop of divide_feature (lines 629-643), returning each
group paired with its final `out_group_units` entry (a Python int, possibly
negative, hence ℤ).  For every group except the last:
`curr_units = max(k * n * units / total, n)` (float, modelled exactly in ℚ),
then `curr_units // n * n - n` (float floor division), then
`min(curr_units, remaining)`; the running remainder decreases by the granted
amount and the loop breaks when it reaches zero (groups after the break keep
their initial `n` units).  The last group absorbs the whole remainder. -/
def allocGroups (units totalOut : ℕ) : List (ℕ × List ℕ) → ℤ →
    List ((ℕ × List ℕ) × ℤ)
  | [], _ => []
  | [g], r => [(g, (g.2.length : ℤ) + r)]
  | g :: g2 :: rest, r =>
    let n : ℤ := g.2.length
    let share : ℚ := ((g.1 * g.2.length * units : ℕ) : ℚ) / (totalOut : ℚ)
    let m : ℚ := max share (n : ℚ)
    let c0 : ℤ := ⌊m / (n : ℚ)⌋ * n - n
    let c : ℤ := min c0 r
    let r2 : ℤ := r - c
    (g, n + c) ::
      (if r2 = 0 then (g2 :: rest).map (fun z => (z, (z.2.length : ℤ)))
       else allocGroups units totalOut (g2 :: rest) r2)

/-- divide_feature (lines 604-651).  `units = in_feature // min_unit`;
group the consumers by equal `out_features` value (via argsort + groupby);
sort the groups by `value * size` descending (stably); run the allocation
loop; then fill a zero array, giving every member of a group
`group_units // group_size * min_unit` (Python floor division, `Int.fdiv`).
The final `np.zeros`-and-assign is the `foldl` over `List.set`. -/
def divide_feature (in_feature : ℕ) (out_features : List ℕ) (min_unit : ℕ) :
    List ℤ :=
  let units := in_feature / min_unit
  let grps := sortGroupsDesc (groupConsec out_features (argsortAsc out_features))
  let totalOut := out_features.sum
  let r0 : ℤ := (units : ℤ) - (grps.map (fun g => (g.2.length : ℤ))).sum
  let alloc := allocGroups units totalOut grps r0
  let pairs := alloc.flatMap
    (fun z => z.1.2.map (fun j => (j, Int.fdiv z.2 z.1.2.length * (min_unit : ℤ))))
  pairs.foldl (fun a q => a.set q.1 q.2) (List.replicate out_features.length 0)

/-- An integer-arithmetic form of the allocation loop: the floored quotient
`⌊max(k*n*units/total, n) / n⌋` is replaced by the equal natural-number
expression `max ((k*n*units) / (total*n)) 1` (proved equal in
`allocGroups_eq_Z` below); used only to evaluate concrete instances. -/
def allocGroupsZ (units totalOut : ℕ) : List (ℕ × List ℕ) → ℤ →
    List ((ℕ × List ℕ) × ℤ)
  | [], _ => []
  | [g], r => [(g, (g.2.length : ℤ) + r)]
  | g :: g2 :: rest, r =>
    let n : ℤ := g.2.length
    let c0 : ℤ := max (((g.1 * g.2.length * units) / (totalOut * g.2.length) : ℕ) : ℤ) 1 * n - n
    let c : ℤ := min c0 r
    let r2 : ℤ := r - c
    (g, n + c) ::
      (if r2 = 0 then (g2 :: rest).map (fun z => (z, (z.2.length : ℤ)))
       else allocGroupsZ units totalOut (g2 :: rest) r2)

/-- divide_feature with the allocation loop in integer arithmetic (proved
equal to `divide_feature` in `divide_feature_eq_Z` below); used only to
evaluate concrete instances. -/
def divide_featureZ (in_feature : ℕ) (out_features : List ℕ) (min_unit : ℕ) :
    List ℤ :=
  let units := in_feature / min_unit
  let grps := sortGroupsDesc (groupConsec out_features (argsortAsc out_features))
  let totalOut := out_features.sum
  let r0 : ℤ := (units : ℤ) - (grps.map (fun g => (g.2.length : ℤ))).sum
  let alloc := allocGroupsZ units totalOut grps r0
  let pairs := alloc.flatMap
    (fun z => z.1.2.map (fun j => (j, Int.fdiv z.2 z.1.2.length * (min_unit : ℤ))))
  pairs.foldl (fun a q => a.set q.1 q.2) (List.replicate out_features.length 0)

/-- The sample gather mode used in witnesses. -/
def maxStr : String := "max"

/-- A sample registered-buffer table used in witnesses. -/
def sampleCache : CoordCache := [((2, 2), mkCoordGrid 2 2)]

/-- A sample signal tensor used in witnesses. -/
def oneSig : ℕ → ℕ → ℚ := fun _ _ => 1

/-! ## Theorems -/

/-- Helper: `use_res_connect` holds exactly when stride is 1 and the channel
counts agree. -/
theorem HPIR.use_res_connect_iff (c : HPIR) :
    c.use_res_connect = true ↔ (c.stride = 1 ∧ c.in_nc = c.out_nc) := by
  simp [HPIR.use_res_connect]

/-- C10: gather_results returns x when y is None; returns the elementwise
mean `(x + y) * 0.5` when inference_gather is "mean"; and returns the
elementwise maximum for every other value of inference_gather (invalid names
included, silently, without raising). -/
theorem gather_results_cases (g : String) (x y : ℕ → ℚ) :
    gather_results g x none = x ∧
    gather_results meanStr x (some y) = (fun i => (x i + y i) * (1 / 2)) ∧
    (g ≠ meanStr → gather_results g x (some y) = fun i => max (x i) (y i)) := by
  refine ⟨rfl, ?_, ?_⟩
  · simp [gather_results]
  · intro hg
    simp [gather_results, hg]

/-- Witness for C10 at the mode "max" (and the hypothesis discharged for an
arbitrary non-"mean" string). -/
theorem gather_results_cases_witness :
    gather_results maxStr (fun _ => (0 : ℚ)) (some fun _ => (1 : ℚ)) =
      fun i => max ((fun _ => (0 : ℚ)) i) ((fun _ => (1 : ℚ)) i) :=
  (gather_results_cases maxStr (fun _ => (0 : ℚ)) (fun _ => (1 : ℚ))).2.2 (by decide)

/-- C5: the dynamic inverted-residual block returns `x + conv(x, s)` when
stride == 1 and inChannels == outChannels, and returns `conv(x, s)` unchanged
otherwise. -/
theorem hpir_forward_res_gating {T S : Type} [Add T] (c : HPIR)
    (conv : T → S → T) (x : T) (s : S) :
    (c.stride = 1 ∧ c.in_nc = c.out_nc → HPIR.forward c conv x s = x + conv x s) ∧
    (¬(c.stride = 1 ∧ c.in_nc = c.out_nc) → HPIR.forward c conv x s = conv x s) := by
  constructor
  · intro h
    rw [HPIR.forward, if_pos ((HPIR.use_res_connect_iff c).mpr h)]
  · intro h
    rw [HPIR.forward, if_neg (fun hb => h ((HPIR.use_res_connect_iff c).mp hb))]

/-- Witness for C5: a concrete block with stride 1 and equal channel counts
adds the input to the conv result. -/
theorem hpir_forward_res_gating_witness :
    HPIR.forward ⟨4, 4, (3, 3), 1, (1 : ℚ)⟩ (fun (x : ℤ) (_ : ℤ) => x) 1 0 = 1 + 1 :=
  (hpir_forward_res_gating ⟨4, 4, (3, 3), 1, (1 : ℚ)⟩ (fun (x : ℤ) (_ : ℤ) => x) 1 0).1
    ⟨rfl, rfl⟩

/-- C9 counterexample: a constructible block (inChannels = outChannels = 4,
kernel 3x3, stride 1, expansion ratio 1/100) has hiddenDim =
round(4 * 1/100) = 0, so its range table is [0, 0, 0, 0], which is not
strictly increasing; the claim fails as stated for this block. -/
theorem hpir_ranges_counterexample :
    HPIR.ranges ⟨4, 4, (3, 3), 1, (1 / 100 : ℚ)⟩ = [0, 0, 0, 0] ∧
    ¬ List.Chain' (· < ·) (HPIR.ranges ⟨4, 4, (3, 3), 1, (1 / 100 : ℚ)⟩) := by
  have hf : ⌊(1 / 25 : ℚ)⌋ = 0 := by
    rw [Int.floor_eq_zero_iff]
    constructor <;> norm_num
  have hp : pyRound (1 / 25 : ℚ) = 0 := by
    simp only [pyRound, hf]
    norm_num
  have hd : HPIR.hidden_dim ⟨4, 4, (3, 3), 1, (1 / 100 : ℚ)⟩ = 0 := by
    have hq : ((4 : ℕ) : ℚ) * (1 / 100 : ℚ) = 1 / 25 := by norm_num
    simp only [HPIR.hidden_dim, hq, hp]
    rfl
  have h : HPIR.ranges ⟨4, 4, (3, 3), 1, (1 / 100 : ℚ)⟩ = [0, 0, 0, 0] := by
    simp only [HPIR.ranges, hd]
  refine ⟨h, ?_⟩
  rw [h]
  simp [List.chain'_cons]

/-- Helper: Python round of an integer-valued rational is that integer. -/
theorem pyRound_intCast (z : ℤ) : pyRound ((z : ℚ)) = z := by
  simp only [pyRound, Int.floor_intCast, sub_self]
  norm_num

/-- Helper: with expansion ratio 1 the hidden dimension equals the input
channel count. -/
theorem HPIR.hidden_dim_ratio_one (a b : ℕ) (k : ℕ × ℕ) (s : ℕ) :
    HPIR.hidden_dim ⟨a, b, k, s, (1 : ℚ)⟩ = a := by
  simp only [HPIR.hidden_dim, mul_one]
  rw [show ((a : ℕ) : ℚ) = ((a : ℤ) : ℚ) by push_cast; rfl, pyRound_intCast]
  exact Int.toNat_natCast a

/-- C9 (amended): provided the channel counts, the kernel dimensions and the
hidden dimension are positive, the range table [0, r1, r2, r3] is strictly
increasing, with r1 = inChannels*hiddenDim, r2 - r1 = hiddenDim*kh*kw,
r3 - r2 = hiddenDim*outChannels, r3 = hyper_params, and the three stage
slices [0,r1), [r1,r2), [r2,r3) are pairwise disjoint and exactly cover
[0, hyper_params). -/
theorem hpir_ranges_strict_partition (c : HPIR)
    (hin : 0 < c.in_nc) (hout : 0 < c.out_nc)
    (hkh : 0 < c.kernel_size.1) (hkw : 0 < c.kernel_size.2)
    (hh : 0 < c.hidden_dim) :
    List.Chain' (· < ·) c.ranges ∧
    c.ranges.getD 1 0 = c.in_nc * c.hidden_dim ∧
    c.ranges.getD 2 0 - c.ranges.getD 1 0 = c.hidden_dim * c.kernel_size.1 * c.kernel_size.2 ∧
    c.ranges.getD 3 0 - c.ranges.getD 2 0 = c.hidden_dim * c.out_nc ∧
    c.ranges.getD 3 0 = c.hyper_params ∧
    (Finset.Ico 0 (c.ranges.getD 1 0) ∪ Finset.Ico (c.ranges.getD 1 0) (c.ranges.getD 2 0) ∪
      Finset.Ico (c.ranges.getD 2 0) (c.ranges.getD 3 0) = Finset.Ico 0 c.hyper_params) ∧
    Disjoint (Finset.Ico 0 (c.ranges.getD 1 0)) (Finset.Ico (c.ranges.getD 1 0) (c.ranges.getD 2 0)) ∧
    Disjoint (Finset.Ico (c.ranges.getD 1 0) (c.ranges.getD 2 0))
      (Finset.Ico (c.ranges.getD 2 0) (c.ranges.getD 3 0)) ∧
    Disjoint (Finset.Ico 0 (c.ranges.getD 1 0)) (Finset.Ico (c.ranges.getD 2 0) (c.ranges.getD 3 0)) := by
  have h1 : 0 < c.in_nc * c.hidden_dim := Nat.mul_pos hin hh
  have h2 : 0 < c.hidden_dim * c.kernel_size.1 * c.kernel_size.2 :=
    Nat.mul_pos (Nat.mul_pos hh hkh) hkw
  have h3 : 0 < c.hidden_dim * c.out_nc := Nat.mul_pos hh hout
  simp only [HPIR.ranges, HPIR.hyper_params, List.chain'_cons, List.chain'_singleton, and_true,
    List.getD_cons_succ, List.getD_cons_zero]
  refine ⟨⟨h1, Nat.lt_add_of_pos_right h2, Nat.lt_add_of_pos_right h3⟩,
    by trivial, by omega, by omega, by trivial, ?_, ?_, ?_, ?_⟩
  · rw [Finset.Ico_union_Ico_eq_Ico (Nat.zero_le _) (Nat.le_add_right _ _),
      Finset.Ico_union_Ico_eq_Ico (Nat.zero_le _) (Nat.le_add_right _ _)]
  · exact Finset.Ico_disjoint_Ico_consecutive _ _ _
  · exact Finset.Ico_disjoint_Ico_consecutive _ _ _
  · exact Disjoint.mono_right (Finset.Ico_subset_Ico (Nat.le_add_right _ _) le_rfl)
      (Finset.Ico_disjoint_Ico_consecutive _ _ _)

/-- Witness for C9 (amended) at a concrete block (5 in, 8 out, 3x3 kernel,
expansion ratio 1, hidden dimension 5). -/
theorem hpir_ranges_strict_partition_witness :
    List.Chain' (· < ·) (HPIR.ranges ⟨5, 8, (3, 3), 1, (1 : ℚ)⟩) := by
  have hh : (0 : ℕ) < HPIR.hidden_dim ⟨5, 8, (3, 3), 1, (1 : ℚ)⟩ := by
    rw [HPIR.hidden_dim_ratio_one]
    decide
  exact (hpir_ranges_strict_partition ⟨5, 8, (3, 3), 1, (1 : ℚ)⟩
    (by decide) (by decide) (by decide) (by decide) hh).1

/-- C3 counterexample: with no construction-registered resolutions (an empty
buffer table), the first lookup for (h, w) = (2, 2) does not store anything:
the decoder state after the call is still empty, so the grid was not cached
by the call (the source computes the missing grid on the spot and discards
it; `self.coords_cache` is initialized but never written). -/
theorem get_image_coordinates_counterexample :
    (get_image_coordinates ([] : CoordCache) 1 2 2).2 = ([] : CoordCache) ∧
    List.find? (fun e => e.1 == (2, 2)) (get_image_coordinates ([] : CoordCache) 1 2 2).2 = none := by
  exact ⟨rfl, rfl⟩

/-- C3 (amended): get_image_coordinates never modifies the decoder state (in
particular nothing is ever stored by a lookup, and nothing is ever evicted);
when (h, w) was registered at construction the stored grid is returned
broadcast to the batch size, and otherwise the grid is recomputed on demand
(by the same formula) on every call, so an immediately repeated call
returns the identical grid. -/
theorem get_image_coordinates_stateless (cache : CoordCache) (b h w : ℕ) :
    (get_image_coordinates cache b h w).2 = cache ∧
    (List.find? (fun e => e.1 == (h, w)) cache = none →
      (get_image_coordinates cache b h w).1 = expandGrid b (mkCoordGrid h w)) ∧
    (∀ e, List.find? (fun e => e.1 == (h, w)) cache = some e →
      (get_image_coordinates cache b h w).1 = expandGrid b e.2) ∧
    (get_image_coordinates ((get_image_coordinates cache b h w).2) b h w).1 =
      (get_image_coordinates cache b h w).1 := by
  have hstate : (get_image_coordinates cache b h w).2 = cache := by
    cases hfind : List.find? (fun e => e.1 == (h, w)) cache <;>
      simp [get_image_coordinates, hfind]
  refine ⟨hstate, ?_, ?_, by rw [hstate]⟩
  · intro hfind
    simp [get_image_coordinates, hfind]
  · intro e hfind
    simp [get_image_coordinates, hfind]

/-- Witness for C3 (amended): a registered (2, 2) grid is returned from the
store, broadcast to batch size 3. -/
theorem get_image_coordinates_stateless_witness :
    (get_image_coordinates sampleCache 3 2 2).1 = expandGrid 3 (mkCoordGrid 2 2) :=
  (get_image_coordinates_stateless sampleCache 3 2 2).2.2.1 ((2, 2), mkCoordGrid 2 2) rfl

/-- Helper: `next_multiply x g` is at least `x` (rounding is upward). -/
theorem le_next_multiply (x g : ℕ) (hg : 0 < g) : x ≤ next_multiply x g := by
  have hgQ : (0 : ℚ) < (g : ℚ) := by exact_mod_cast hg
  have hnn : 0 ≤ ⌈(x : ℚ) / (g : ℚ)⌉ :=
    Int.ceil_nonneg (div_nonneg (by positivity) (by positivity))
  have hc : ((x : ℚ) / (g : ℚ)) ≤ (⌈(x : ℚ) / (g : ℚ)⌉ : ℚ) := Int.le_ceil _
  have hx : (x : ℚ) ≤ (⌈(x : ℚ) / (g : ℚ)⌉ : ℚ) * (g : ℚ) := (div_le_iff hgQ).mp hc
  have h2 : ((Int.toNat ⌈(x : ℚ) / (g : ℚ)⌉ : ℕ) : ℚ) = ((⌈(x : ℚ) / (g : ℚ)⌉ : ℤ) : ℚ) := by
    exact_mod_cast congrArg (fun z : ℤ => (z : ℚ)) (Int.toNat_of_nonneg hnn)
  have : (x : ℚ) ≤ ((Int.toNat ⌈(x : ℚ) / (g : ℚ)⌉ * g : ℕ) : ℚ) := by
    push_cast
    push_cast at h2
    rw [h2]
    exact hx
  exact_mod_cast this

/-- Helper: `next_multiply x g` is a multiple of `g`. -/
theorem next_multiply_dvd (x g : ℕ) : g ∣ next_multiply x g :=
  dvd_mul_left g _

/-- Helper: `next_multiply x g` is the least multiple of `g` that is ≥ x. -/
theorem next_multiply_le (x g m : ℕ) (hg : 0 < g) (hd : g ∣ m) (hle : x ≤ m) :
    next_multiply x g ≤ m := by
  obtain ⟨k, rfl⟩ := hd
  have hgQ : (0 : ℚ) < (g : ℚ) := by exact_mod_cast hg
  have hck : ⌈(x : ℚ) / (g : ℚ)⌉ ≤ (k : ℤ) := by
    rw [Int.ceil_le]
    rw [div_le_iff hgQ]
    push_cast
    calc (x : ℚ) ≤ ((g * k : ℕ) : ℚ) := by exact_mod_cast hle
    _ = (k : ℚ) * (g : ℚ) := by push_cast; ring
  have htk : Int.toNat ⌈(x : ℚ) / (g : ℚ)⌉ ≤ k := Int.toNat_le.mpr hck
  calc next_multiply x g = Int.toNat ⌈(x : ℚ) / (g : ℚ)⌉ * g := rfl
  _ ≤ k * g := Nat.mul_le_mul_right g htk
  _ = g * k := Nat.mul_comm k g

/-- C4: for an initialized weight generator with target t, group factor g
(g > 0 and g dividing the signal slice width, as the conv constructor
requires), generate (= apply_signal2weights) yields exactly t output
channels; the inner 1x1 grouped convolution has out-channel count
`next_multiply t g`, which is the least multiple of g that is ≥ t (rounding
up); and the output depends on the signal only through the configured slice
[signalIndex, signalIndex + signalChannels). -/
theorem weightLayer_generate_channels (t g sIdx sCh : ℕ) (hg : 0 < g)
    (hdvd : g ∣ sCh) (W : ℕ → ℕ → ℚ) (s : ℕ → ℕ → ℚ) :
    (apply_signal2weights ⟨t, sCh, sIdx, g⟩ W s).1 = t ∧
    g ∣ next_multiply t g ∧
    t ≤ next_multiply t g ∧
    (∀ m : ℕ, g ∣ m → t ≤ m → next_multiply t g ≤ m) ∧
    (∀ s' : ℕ → ℕ → ℚ,
      (∀ ch, ch < sCh → ∀ p, s (sIdx + ch) p = s' (sIdx + ch) p) →
      ∀ c, c < t → ∀ p,
        (apply_signal2weights ⟨t, sCh, sIdx, g⟩ W s).2 c p =
        (apply_signal2weights ⟨t, sCh, sIdx, g⟩ W s').2 c p) := by
  have hle : t ≤ next_multiply t g := le_next_multiply t g hg
  refine ⟨by simpa [apply_signal2weights] using Nat.min_eq_left hle,
    next_multiply_dvd t g, hle, fun m hd hm => next_multiply_le t g m hg hd hm, ?_⟩
  intro s' hagree c hc p
  simp only [apply_signal2weights, conv1x1_grouped]
  refine Finset.sum_congr rfl fun j hj => ?_
  rw [Finset.mem_range] at hj
  have hq : next_multiply t g / g = Int.toNat ⌈(t : ℚ) / (g : ℚ)⌉ :=
    Nat.mul_div_cancel _ hg
  have hq0 : 0 < next_multiply t g / g := by
    rcases Nat.eq_zero_or_pos (next_multiply t g / g) with h0 | h
    · exfalso
      have : next_multiply t g = 0 := by
        rw [show next_multiply t g = Int.toNat ⌈(t : ℚ) / (g : ℚ)⌉ * g from rfl]
        rw [hq] at h0
        rw [h0, Nat.zero_mul]
      omega
    · exact h
  have hclt : c / (next_multiply t g / g) < g := by
    rw [Nat.div_lt_iff_lt_mul hq0]
    calc c < t := hc
    _ ≤ next_multiply t g := hle
    _ = g * (next_multiply t g / g) := (Nat.mul_div_cancel' (next_multiply_dvd t g)).symm
  have hidx : c / (next_multiply t g / g) * (sCh / g) + j < sCh := by
    calc c / (next_multiply t g / g) * (sCh / g) + j
        < c / (next_multiply t g / g) * (sCh / g) + sCh / g := by omega
    _ = (c / (next_multiply t g / g) + 1) * (sCh / g) := by ring
    _ ≤ g * (sCh / g) := Nat.mul_le_mul_right _ (Nat.succ_le_of_lt hclt)
    _ = sCh := Nat.mul_div_cancel' hdvd
  have := hagree (c / (next_multiply t g / g) * (sCh / g) + j) hidx p
  simp only [sliceSignal]
  rw [this]

/-- Witness for C4 at t = 3, g = 2, slice [1, 5): the output channel count is
exactly 3. -/
theorem weightLayer_generate_channels_witness :
    (apply_signal2weights ⟨3, 4, 1, 2⟩ oneSig oneSig).1 = 3 :=
  (weightLayer_generate_channels 3 2 1 4 (by decide) (by decide) oneSig oneSig).1

/-- C2 counterexample: a feature tensor of height 10 (shape 1x8x10x10) with a
weight grid of fh = 3 (weight shape 1x288x3x5, inner conv 8 -> 4 channels,
kernel 3, padding 1) does NOT raise: HyperPatch.forward silently uses
ph = 10 // 3 = 3, produces 3x5 unfold windows, and folds back into the 10x10
canvas, returning a (1, 4, 10, 10) tensor although 10 is not divisible
by 3. -/
theorem hyperPatch_counterexample :
    hyperPatchForwardShape 1 1 ⟨8, 4, 3, 1, 1⟩ ⟨1, 8, 10, 10⟩ ⟨1, 288, 3, 5⟩ =
      some ⟨1, 4, 10, 10⟩ ∧ 10 % 3 ≠ 0 := by
  exact ⟨by decide, by decide⟩

/-- C2 (amended): HyperPatch.forward contains no divisibility check.  On
every well-formed configuration (odd kernel k = 2*padding + 1, stride 1,
positive channel counts, groups dividing the channel counts, positive grid
and patch sizes, padding smaller than the input) whose spatial dimensions
ARE exact multiples of the weight grid, the engine returns a
(B, outC, H, W) tensor and raises nothing; and non-divisible inputs do not
necessarily raise either (see the counterexample), so no ShapeError is
guaranteed. -/
theorem hyperPatch_divisible_ok (b cin cout g k p fh fw ph pw : ℕ)
    (hb : 0 < b) (hcin : 0 < cin) (hcout : 0 < cout)
    (hg : 0 < g) (hgin : g ∣ cin) (hgout : g ∣ cout)
    (hfh : 0 < fh) (hfw : 0 < fw) (hph : 0 < ph) (hpw : 0 < pw)
    (hk : k = 2 * p + 1) (hpadh : p < fh * ph) (hpadw : p < fw * pw) :
    hyperPatchForwardShape p p ⟨cin, cout, k, 1, g⟩ ⟨b, cin, fh * ph, fw * pw⟩
      ⟨b, cout * (cin / g) * k * k, fh, fw⟩ = some ⟨b, cout, fh * ph, fw * pw⟩ := by
  have hph' : fh * ph / fh = ph := Nat.mul_div_cancel_left ph hfh
  have hpw' : fw * pw / fw = pw := Nat.mul_div_cancel_left pw hfw
  have hsubh : fh * ph + 2 * p - (ph + 2 * p) = (fh - 1) * ph := by
    rw [Nat.sub_one_mul]
    omega
  have hsubw : fw * pw + 2 * p - (pw + 2 * p) = (fw - 1) * pw := by
    rw [Nat.sub_one_mul]
    omega
  have hnH : (fh * ph + 2 * p - (ph + 2 * p)) / ph + 1 = fh := by
    rw [hsubh, Nat.mul_div_cancel _ hph]
    omega
  have hnW : (fw * pw + 2 * p - (pw + 2 * p)) / pw + 1 = fw := by
    rw [hsubw, Nat.mul_div_cancel _ hpw]
    omega
  have hsubh2 : fh * ph - ph = (fh - 1) * ph := by
    rw [Nat.sub_one_mul]
  have hsubw2 : fw * pw - pw = (fw - 1) * pw := by
    rw [Nat.sub_one_mul]
  have hfold : ((fh * ph - ph) / ph + 1) * ((fw * pw - pw) / pw + 1) = fh * fw := by
    rw [hsubh2, hsubw2, Nat.mul_div_cancel _ hph, Nat.mul_div_cancel _ hpw]
    have h1 : fh - 1 + 1 = fh := by omega
    have h2 : fw - 1 + 1 = fw := by omega
    rw [h1, h2]
  subst hk
  have hx1 : ph ≤ fh * ph := Nat.le_mul_of_pos_left ph hfh
  have hx2 : pw ≤ fw * pw := Nat.le_mul_of_pos_left pw hfw
  have hmeta : metaConv2dShape ⟨cin, cout, 2 * p + 1, 1, g⟩
      ⟨b * (fh * fw), cin, ph + 2 * p, pw + 2 * p⟩ (b * (fh * fw))
      (cout * (cin / g) * (2 * p + 1) * (2 * p + 1)) =
      some ⟨b * (fh * fw), cout, ph, pw⟩ := by
    obtain ⟨q, hq⟩ := hgout
    have hmod : cin % g = 0 := (Nat.mod_eq_zero_of_dvd hgin)
    have hmod2 : b * (fh * fw) * cout % (b * (fh * fw) * g) = 0 := by
      rw [hq, show b * (fh * fw) * (g * q) = b * (fh * fw) * g * q by ring]
      exact Nat.mul_mod_right _ _
    have hwr : b * (fh * fw) ≠ 0 := by positivity
    simp only [metaConv2dShape]
    rw [if_neg (by omega), if_neg hwr, if_neg (by omega), if_neg (by omega),
      if_neg (by omega), if_neg (by omega), if_neg (by omega), if_neg (by omega)]
    simp only [Nat.div_one]
    rw [show ph + 2 * p - (2 * p + 1) + 1 = ph by omega,
      show pw + 2 * p - (2 * p + 1) + 1 = pw by omega]
  have hdivg : 0 < cin / g := Nat.div_pos (Nat.le_of_dvd hcin hgin) hg
  have hwtc : cout * (cin / g) * (2 * p + 1) * (2 * p + 1) ≠ 0 := by positivity
  simp only [hyperPatchForwardShape, hph', hpw', hnH, hnW]
  rw [if_neg (by omega), if_neg hwtc, if_neg (by omega), if_neg (by omega),
    if_neg (by omega), if_neg (by omega), hmeta]
  dsimp only
  have hpos : 0 < b * (fh * fw) * (ph * pw) := by positivity
  have heq : b * (fh * fw) * cout * ph * pw = b * (fh * fw) * (ph * pw) * cout := by ring
  rw [if_neg (by omega)]
  rw [if_neg (by simp only [heq, Nat.mul_mod_right, ne_eq, not_true_eq_false, not_false_eq_true])]
  rw [if_neg (by rw [hfold]; simp)]
  rw [heq, Nat.mul_div_cancel_left _ hpos]

/-- Witness for C2 (amended) at a divisible 12x10 input with a 3x5 grid. -/
theorem hyperPatch_divisible_ok_witness :
    hyperPatchForwardShape 1 1 ⟨8, 4, 3, 1, 1⟩ ⟨1, 8, 12, 10⟩ ⟨1, 288, 3, 5⟩ =
      some ⟨1, 4, 12, 10⟩ :=
  hyperPatch_divisible_ok 1 8 4 1 3 1 3 5 4 2 (by decide) (by decide) (by decide)
    (by decide) (by decide) (by decide) (by decide) (by decide) (by decide)
    (by decide) (by decide) (by decide) (by decide)

/-- Helper for C6: state of the decoder loop after the first n levels, for a
decoder with 1 ≤ unify_level: the loop-local weight variable holds the output
of the last invoked weight block (index min(n-1, unify_level-1)), the
invocation trace is exactly [0, ..., min(n, unify_level) - 1] (one invocation
per level below unify_level - 1, then a single shared invocation at level
unify_level - 1, none after), and the weight fed to level l is the dedicated
output below unify_level - 1 and the slice
[ranges[l-unify_level+1], ranges[l-unify_level+2]) of the single shared
output from level unify_level - 1 on. -/
theorem msdForward_state {T W S : Type} (d : DecoderCfg T W S) (s : S) (w0 : W)
    (hu : 1 ≤ d.unify_level) :
    ∀ n,
      ((List.range n).foldl (msdStep d s) (none, w0, [], [])).2.1 =
        (if n = 0 then w0 else d.weight_blocks (min (n - 1) (d.unify_level - 1)) s) ∧
      ((List.range n).foldl (msdStep d s) (none, w0, [], [])).2.2.1 =
        List.range (min n d.unify_level) ∧
      ((List.range n).foldl (msdStep d s) (none, w0, [], [])).2.2.2 =
        (List.range n).map (fun l =>
           if l < d.unify_level - 1 then d.weight_blocks l s
           else d.slice_w (d.weight_blocks (d.unify_level - 1) s)
                  (d.ranges.getD (l + 1 - d.unify_level) 0)
                  (d.ranges.getD (l + 2 - d.unify_level) 0)) := by
  intro n
  induction n with
  | zero => exact ⟨by simp, by simp, by simp⟩
  | succ n ih =>
    obtain ⟨ihw, iht, ihf⟩ := ih
    rw [List.range_succ, List.foldl_append, List.foldl_cons, List.foldl_nil]
    by_cases h1 : n < d.unify_level - 1
    · have hmin1 : min n (d.unify_level - 1) = n := Nat.min_eq_left (Nat.le_of_lt h1)
      have hmin2 : min n d.unify_level = n := Nat.min_eq_left (by omega)
      have hmin3 : min (n + 1) d.unify_level = n + 1 := Nat.min_eq_left (by omega)
      have hmin4 : min (n + 1 - 1) (d.unify_level - 1) = n := by
        simp only [Nat.add_sub_cancel]
        exact hmin1
      simp only [msdStep, if_pos h1]
      refine ⟨?_, ?_, ?_⟩
      · rw [hmin1, hmin4, if_neg (Nat.succ_ne_zero n)]
      · rw [iht, hmin1, hmin2, hmin3, ← List.range_succ]
      · rw [ihf, hmin1, List.map_append]
        simp only [List.map_cons, List.map_nil, if_pos h1]
    · by_cases h2 : n = d.unify_level - 1
      · have hmin1 : min n (d.unify_level - 1) = d.unify_level - 1 := by omega
        have hmin2 : min n d.unify_level = d.unify_level - 1 := by omega
        have hmin3 : min (n + 1) d.unify_level = d.unify_level := by omega
        have hmin4 : min (n + 1 - 1) (d.unify_level - 1) = d.unify_level - 1 := by
          simp only [Nat.add_sub_cancel]
          omega
        have hidx : n + 1 - d.unify_level + 1 = n + 2 - d.unify_level := by omega
        simp only [msdStep, if_neg h1, if_pos h2]
        refine ⟨?_, ?_, ?_⟩
        · rw [hmin1, hmin4, if_neg (Nat.succ_ne_zero n)]
        · rw [iht, hmin1, hmin2, hmin3, ← List.range_succ]
          congr 1
          omega
        · rw [ihf, hmin1, hidx, List.map_append]
          simp only [List.map_cons, List.map_nil, if_neg h1]
      · have hn0 : n ≠ 0 := by omega
        have hmin1 : min n (d.unify_level - 1) = d.unify_level - 1 := by omega
        have hmin2 : min n d.unify_level = d.unify_level := by omega
        have hmin3 : min (n + 1) d.unify_level = d.unify_level := by omega
        have hmin4 : min (n + 1 - 1) (d.unify_level - 1) = d.unify_level - 1 := by
          simp only [Nat.add_sub_cancel]
          omega
        have hmin5 : min (n - 1) (d.unify_level - 1) = d.unify_level - 1 := by omega
        have hidx : n + 1 - d.unify_level + 1 = n + 2 - d.unify_level := by omega
        simp only [msdStep, if_neg h1, if_neg h2]
        refine ⟨?_, ?_, ?_⟩
        · rw [ihw, if_neg hn0, hmin5, hmin4, if_neg (Nat.succ_ne_zero n)]
        · rw [iht, hmin2, hmin3]
        · rw [ihf, ihw, if_neg hn0, hmin5, hidx, List.map_append]
          simp only [List.map_cons, List.map_nil, if_neg h1]

/-- C6: in a full decoder forward pass with unify_level set (1 ≤ unify_level
≤ levels), the weight-block invocation trace is exactly [0, ...,
unify_level-1]: the shared block (index unify_level - 1) is invoked exactly
once, at level unify_level - 1 (the first level with index ≥ unify_level -
1), and never again; every level l ≥ unify_level - 1 receives the contiguous
slice [ranges[i], ranges[i+1]) of that single generated output, with
i = l - unify_level + 1, taken from the range table fixed at
construction. -/
theorem msd_forward_unified_generator_once {T W S : Type} (d : DecoderCfg T W S)
    (s : S) (w0 : W) (h1 : 1 ≤ d.unify_level) (h2 : d.unify_level ≤ d.levels) :
    (msdForward d s w0).2.2.1 = List.range d.unify_level ∧
    (msdForward d s w0).2.2.1.count (d.unify_level - 1) = 1 ∧
    (msdForward d s w0).2.2.2 = (List.range d.levels).map (fun l =>
      if l < d.unify_level - 1 then d.weight_blocks l s
      else d.slice_w (d.weight_blocks (d.unify_level - 1) s)
             (d.ranges.getD (l + 1 - d.unify_level) 0)
             (d.ranges.getD (l + 2 - d.unify_level) 0)) := by
  obtain ⟨-, ht, hf⟩ := msdForward_state d s w0 h1 d.levels
  have hmin : min d.levels d.unify_level = d.unify_level := Nat.min_eq_right h2
  rw [msdForward, ht, hf, hmin]
  refine ⟨rfl, ?_, rfl⟩
  exact List.count_eq_one_of_mem (List.nodup_range _) (List.mem_range.mpr (by omega))

/-- Witness for C6 on the concrete 3-level decoder with unify_level 2. -/
theorem msd_forward_unified_generator_once_witness :
    (msdForward sampleDecoder 7 999).2.2.1 = List.range sampleDecoder.unify_level ∧
    (msdForward sampleDecoder 7 999).2.2.1.count (sampleDecoder.unify_level - 1) = 1 ∧
    (msdForward sampleDecoder 7 999).2.2.2 = (List.range sampleDecoder.levels).map (fun l =>
      if l < sampleDecoder.unify_level - 1 then sampleDecoder.weight_blocks l 7
      else sampleDecoder.slice_w (sampleDecoder.weight_blocks (sampleDecoder.unify_level - 1) 7)
             (sampleDecoder.ranges.getD (l + 1 - sampleDecoder.unify_level) 0)
             (sampleDecoder.ranges.getD (l + 2 - sampleDecoder.unify_level) 0)) :=
  msd_forward_unified_generator_once sampleDecoder 7 999 (by decide) (by decide)

theorem insIdxAsc_perm (vals : List ℕ) (i : ℕ) :
    ∀ l : List ℕ, (insIdxAsc vals i l).Perm (i :: l)
  | [] => List.Perm.refl _
  | j :: rest => by
    simp only [insIdxAsc]
    split
    · exact ((insIdxAsc_perm vals i rest).cons j).trans (List.Perm.swap i j rest)
    · exact List.Perm.refl _

theorem argsortAsc_perm (vals : List ℕ) :
    (argsortAsc vals).Perm (List.range vals.length) := by
  rw [argsortAsc]
  generalize List.range vals.length = l
  induction l with
  | nil => exact List.Perm.refl _
  | cons i rest ih =>
    rw [List.foldr_cons]
    exact (insIdxAsc_perm vals i _).trans (ih.cons i)

theorem insIdxAsc_pairwise (vals : List ℕ) (i : ℕ) :
    ∀ l : List ℕ, l.Pairwise (fun a b => vals.getD a 0 ≤ vals.getD b 0) →
      (insIdxAsc vals i l).Pairwise (fun a b => vals.getD a 0 ≤ vals.getD b 0)
  | [], _ => List.pairwise_singleton _ _
  | j :: rest, h => by
    rw [List.pairwise_cons] at h
    simp only [insIdxAsc]
    split
    · rename_i hlt
      rw [List.pairwise_cons]
      refine ⟨?_, insIdxAsc_pairwise vals i rest h.2⟩
      intro a ha
      rcases List.mem_cons.mp (((insIdxAsc_perm vals i rest).mem_iff).mp ha) with h1 | h2
      · subst h1
        exact Nat.le_of_lt hlt
      · exact h.1 a h2
    · rename_i hge
      rw [List.pairwise_cons]
      refine ⟨?_, List.pairwise_cons.mpr h⟩
      intro a ha
      rcases List.mem_cons.mp ha with h1 | h2
      · subst h1
        omega
      · exact Nat.le_trans (by omega) (h.1 a h2)

theorem argsortAsc_pairwise (vals : List ℕ) :
    (argsortAsc vals).Pairwise (fun a b => vals.getD a 0 ≤ vals.getD b 0) := by
  rw [argsortAsc]
  generalize List.range vals.length = l
  induction l with
  | nil => exact List.Pairwise.nil
  | cons i rest ih =>
    rw [List.foldr_cons]
    exact insIdxAsc_pairwise vals i _ ih

theorem groupConsec_flat (vals : List ℕ) :
    ∀ l : List ℕ, (groupConsec vals l).flatMap Prod.snd = l
  | [] => rfl
  | i :: rest => by
    have ih := groupConsec_flat vals rest
    rw [groupConsec]
    cases hg : groupConsec vals rest with
    | nil =>
      rw [hg] at ih
      simp only [List.flatMap_nil] at ih
      simp [← ih]
    | cons g gs =>
      rw [hg] at ih
      obtain ⟨k, is⟩ := g
      by_cases hk : vals.getD i 0 = k
      · simp only [if_pos hk, List.flatMap_cons] at ih ⊢
        simp [← List.append_assoc, ih]
      · simp only [if_neg hk, List.flatMap_cons] at ih ⊢
        simp [ih]

theorem groupConsec_mem_val (vals : List ℕ) :
    ∀ l : List ℕ, ∀ g ∈ groupConsec vals l, ∀ j ∈ g.2, vals.getD j 0 = g.1
  | [] => by simp [groupConsec]
  | i :: rest => by
    have ih := groupConsec_mem_val vals rest
    rw [groupConsec]
    cases hg : groupConsec vals rest with
    | nil =>
      intro g hgmem j hj
      simp only [List.mem_singleton] at hgmem
      subst hgmem
      simp only [List.mem_singleton] at hj
      subst hj
      rfl
    | cons g0 gs =>
      rw [hg] at ih
      obtain ⟨k, is⟩ := g0
      by_cases hk : vals.getD i 0 = k
      · simp only [if_pos hk]
        intro g hgmem j hj
        rcases List.mem_cons.mp hgmem with h1 | h2
        · subst h1
          rcases List.mem_cons.mp hj with h3 | h4
          · subst h3
            exact hk
          · exact ih (k, is) (List.mem_cons_self _ _) j h4
        · exact ih g (List.mem_cons_of_mem _ h2) j hj
      · simp only [if_neg hk]
        intro g hgmem j hj
        rcases List.mem_cons.mp hgmem with h1 | h2
        · subst h1
          simp only [List.mem_singleton] at hj
          subst hj
          rfl
        · exact ih g h2 j hj

theorem groupConsec_ne_nil (vals : List ℕ) :
    ∀ l : List ℕ, ∀ g ∈ groupConsec vals l, g.2 ≠ []
  | [] => by simp [groupConsec]
  | i :: rest => by
    have ih := groupConsec_ne_nil vals rest
    rw [groupConsec]
    cases hg : groupConsec vals rest with
    | nil =>
      intro g hgmem
      simp only [List.mem_singleton] at hgmem
      subst hgmem
      simp
    | cons g0 gs =>
      rw [hg] at ih
      obtain ⟨k, is⟩ := g0
      by_cases hk : vals.getD i 0 = k
      · simp only [if_pos hk]
        intro g hgmem
        rcases List.mem_cons.mp hgmem with h1 | h2
        · subst h1
          simp
        · exact ih g (List.mem_cons_of_mem _ h2)
      · simp only [if_neg hk]
        intro g hgmem
        rcases List.mem_cons.mp hgmem with h1 | h2
        · subst h1
          simp
        · exact ih g h2


theorem groupConsec_keys_pairwise (vals : List ℕ) :
    ∀ l : List ℕ, l.Pairwise (fun a b => vals.getD a 0 ≤ vals.getD b 0) →
      ((groupConsec vals l).map Prod.fst).Pairwise (· < ·)
  | [], _ => by simp [groupConsec]
  | i :: rest, h => by
    rw [List.pairwise_cons] at h
    have ih := groupConsec_keys_pairwise vals rest h.2
    rw [groupConsec]
    cases hg : groupConsec vals rest with
    | nil => simp
    | cons g0 gs =>
      rw [hg] at ih
      have hmem := groupConsec_mem_val vals rest
      have hne := groupConsec_ne_nil vals rest
      rw [hg] at hmem hne
      have hflat := groupConsec_flat vals rest
      rw [hg] at hflat
      obtain ⟨k, is⟩ := g0
      have hik : vals.getD i 0 ≤ k := by
        have hne0 : is ≠ [] := hne (k, is) (List.mem_cons_self _ _)
        obtain ⟨j0, is0, rfl⟩ := List.exists_cons_of_ne_nil hne0
        have hval : vals.getD j0 0 = k :=
          hmem (k, j0 :: is0) (List.mem_cons_self _ _) j0 (List.mem_cons_self _ _)
        have hj0rest : j0 ∈ rest := by
          rw [← hflat]
          exact List.mem_flatMap.mpr ⟨(k, j0 :: is0), List.mem_cons_self _ _,
            List.mem_cons_self _ _⟩
        calc vals.getD i 0 ≤ vals.getD j0 0 := h.1 j0 hj0rest
        _ = k := hval
      by_cases hk : vals.getD i 0 = k
      · simp only [if_pos hk]
        exact ih
      · simp only [if_neg hk, List.map_cons]
        rw [List.pairwise_cons]
        refine ⟨?_, ih⟩
        intro a ha
        rcases List.mem_cons.mp ha with h1 | h2
        · subst h1
          exact lt_of_le_of_ne hik hk
        · rw [List.map_cons, List.pairwise_cons] at ih
          exact lt_trans (lt_of_le_of_ne hik hk) (ih.1 a h2)

theorem insGroupDesc_perm (x : ℕ × List ℕ) :
    ∀ l : List (ℕ × List ℕ), (insGroupDesc x l).Perm (x :: l)
  | [] => List.Perm.refl _
  | y :: rest => by
    simp only [insGroupDesc]
    split
    · exact ((insGroupDesc_perm x rest).cons y).trans (List.Perm.swap x y rest)
    · exact List.Perm.refl _

theorem sortGroupsDesc_perm (gs : List (ℕ × List ℕ)) :
    (sortGroupsDesc gs).Perm gs := by
  rw [sortGroupsDesc]
  induction gs with
  | nil => exact List.Perm.refl _
  | cons g rest ih =>
    rw [List.foldr_cons]
    exact (insGroupDesc_perm g _).trans (ih.cons g)

theorem mapLen_fst :
    ∀ l : List (ℕ × List ℕ),
      (l.map (fun z => (z, ((z.2.length : ℕ) : ℤ)))).map Prod.fst = l
  | [] => rfl
  | a :: rest => by
    simp only [List.map_cons]
    rw [mapLen_fst rest]

theorem mapLen_snd :
    ∀ l : List (ℕ × List ℕ),
      (l.map (fun z => (z, ((z.2.length : ℕ) : ℤ)))).map Prod.snd =
        l.map (fun z => ((z.2.length : ℕ) : ℤ))
  | [] => rfl
  | a :: rest => by
    simp only [List.map_cons]
    rw [mapLen_snd rest]

theorem allocGroups_map_fst (u t : ℕ) :
    ∀ (gs : List (ℕ × List ℕ)) (r : ℤ), (allocGroups u t gs r).map Prod.fst = gs
  | [], _ => rfl
  | [g], r => rfl
  | g :: g2 :: rest, r => by
    rw [allocGroups]
    split
    · rw [List.map_cons, mapLen_fst]
    · rw [List.map_cons, allocGroups_map_fst u t (g2 :: rest) _]

theorem allocGroups_sum (u t : ℕ) :
    ∀ (gs : List (ℕ × List ℕ)) (r : ℤ), gs ≠ [] →
      ((allocGroups u t gs r).map Prod.snd).sum =
        (gs.map (fun g => (g.2.length : ℤ))).sum + r
  | [], _, h => absurd rfl h
  | [g], r, _ => by simp [allocGroups]
  | g :: g2 :: rest, r, _ => by
    rw [allocGroups]
    split
    · rename_i hr2
      rw [List.map_cons, List.sum_cons, mapLen_snd]
      simp only [List.map_cons, List.sum_cons]
      omega
    · rename_i hr2
      rw [List.map_cons, List.sum_cons, allocGroups_sum u t (g2 :: rest) _ (by simp)]
      simp only [List.map_cons, List.sum_cons]
      omega

theorem allocGroups_eq_Z (u t : ℕ) :
    ∀ (gs : List (ℕ × List ℕ)) (r : ℤ), (∀ g ∈ gs, g.2 ≠ []) →
      allocGroups u t gs r = allocGroupsZ u t gs r
  | [], _, _ => rfl
  | [g], r, _ => rfl
  | g :: g2 :: rest, r, h => by
    have hn : 0 < g.2.length :=
      List.length_pos.mpr (h g (List.mem_cons_self _ _))
    have hmax : ∀ a b : ℚ, ⌊max a b⌋ = max ⌊a⌋ ⌊b⌋ := fun a b =>
      Monotone.map_max Int.floor_mono
    have hcast : (((g.2.length : ℤ)) : ℚ) = ((g.2.length : ℕ) : ℚ) := by
      push_cast
      ring
    have hfloor : ⌊(max (((g.1 * g.2.length * u : ℕ) : ℚ) / ((t : ℕ) : ℚ))
          (((g.2.length : ℤ)) : ℚ)) / (((g.2.length : ℤ)) : ℚ)⌋ =
        max (((g.1 * g.2.length * u) / (t * g.2.length) : ℕ) : ℤ) 1 := by
      rw [hcast]
      rw [← max_div_div_right (by positivity : (0 : ℚ) ≤ ((g.2.length : ℕ) : ℚ))]
      rw [hmax]
      congr 1
      · rw [div_div, show ((g.1 * g.2.length * u : ℕ) : ℚ) =
            (((g.1 * g.2.length * u : ℕ) : ℤ) : ℚ) by push_cast; ring,
          show ((t : ℕ) : ℚ) * ((g.2.length : ℕ) : ℚ) = ((t * g.2.length : ℕ) : ℚ) by push_cast; ring,
          Rat.floor_intCast_div_natCast, Int.ofNat_div]
        norm_cast
      · rw [div_self (by positivity : ((g.2.length : ℕ) : ℚ) ≠ 0)]
        exact Int.floor_one
    rw [allocGroups, allocGroupsZ]
    rw [hfloor]
    split
    · rfl
    · rw [allocGroups_eq_Z u t (g2 :: rest) _ (fun g hg => h g (List.mem_cons_of_mem _ hg))]

theorem foldl_set_length : ∀ (pairs : List (ℕ × ℤ)) (acc : List ℤ),
    (pairs.foldl (fun a q => a.set q.1 q.2) acc).length = acc.length
  | [], _ => rfl
  | p :: rest, acc => by
    rw [List.foldl_cons, foldl_set_length rest _, List.length_set]

theorem foldl_set_getD_not_mem : ∀ (pairs : List (ℕ × ℤ)) (acc : List ℤ) (i : ℕ),
    i ∉ pairs.map Prod.fst →
    (pairs.foldl (fun a q => a.set q.1 q.2) acc).getD i 0 = acc.getD i 0
  | [], _, _, _ => rfl
  | p :: rest, acc, i, h => by
    rw [List.map_cons] at h
    rw [List.foldl_cons]
    have h1 : i ∉ rest.map Prod.fst := fun hm => h (List.mem_cons_of_mem _ hm)
    rw [foldl_set_getD_not_mem rest _ i h1]
    have hne : p.1 ≠ i := fun he => h (he ▸ List.mem_cons_self _ _)
    rw [List.getD_eq_getElem?_getD, List.getD_eq_getElem?_getD, List.getElem?_set_ne hne]

theorem foldl_set_getD : ∀ (pairs : List (ℕ × ℤ)) (acc : List ℤ),
    (pairs.map Prod.fst).Nodup → ∀ p ∈ pairs, p.1 < acc.length →
    (pairs.foldl (fun a q => a.set q.1 q.2) acc).getD p.1 0 = p.2
  | [], _, _, p, hp, _ => absurd hp (List.not_mem_nil p)
  | q :: rest, acc, hnd, p, hp, hlt => by
    rw [List.map_cons, List.nodup_cons] at hnd
    rw [List.foldl_cons]
    rcases List.mem_cons.mp hp with h1 | h2
    · subst h1
      rw [foldl_set_getD_not_mem rest _ p.1 hnd.1]
      rw [List.getD_eq_getElem?_getD, List.getElem?_set_self hlt]
      rfl
    · exact foldl_set_getD rest _ hnd.2 p h2 (by rw [List.length_set]; exact hlt)

theorem sum_set_int : ∀ (l : List ℤ) (i : ℕ) (a : ℤ), i < l.length →
    (l.set i a).sum = l.sum - l.getD i 0 + a
  | [], i, a, h => absurd h (by simp)
  | x :: rest, 0, a, _ => by
    simp only [List.set_cons_zero, List.sum_cons, List.getD_cons_zero]
    ring
  | x :: rest, i + 1, a, h => by
    simp only [List.set_cons_succ, List.sum_cons, List.getD_cons_succ]
    rw [sum_set_int rest i a (by simpa using h)]
    ring

theorem foldl_set_sum : ∀ (pairs : List (ℕ × ℤ)) (acc : List ℤ),
    (pairs.map Prod.fst).Nodup →
    (∀ p ∈ pairs, p.1 < acc.length ∧ acc.getD p.1 0 = 0) →
    (pairs.foldl (fun a q => a.set q.1 q.2) acc).sum = acc.sum + (pairs.map Prod.snd).sum
  | [], acc, _, _ => by simp
  | q :: rest, acc, hnd, hz => by
    rw [List.map_cons, List.nodup_cons] at hnd
    rw [List.foldl_cons]
    have hq := hz q (List.mem_cons_self _ _)
    have hrest : ∀ p ∈ rest, p.1 < (acc.set q.1 q.2).length ∧
        (acc.set q.1 q.2).getD p.1 0 = 0 := by
      intro p hp
      have hpz := hz p (List.mem_cons_of_mem _ hp)
      refine ⟨by rw [List.length_set]; exact hpz.1, ?_⟩
      have hne : q.1 ≠ p.1 := fun he => hnd.1 (he ▸ List.mem_map.mpr ⟨p, hp, rfl⟩)
      rw [List.getD_eq_getElem?_getD, List.getElem?_set_ne hne, ← List.getD_eq_getElem?_getD]
      exact hpz.2
    rw [foldl_set_sum rest _ hnd.2 hrest, sum_set_int acc q.1 q.2 hq.1, hq.2,
      List.map_cons, List.sum_cons]
    ring

theorem foldl_set_mem : ∀ (pairs : List (ℕ × ℤ)) (acc : List ℤ) (x : ℤ),
    x ∈ pairs.foldl (fun a q => a.set q.1 q.2) acc → x ∈ acc ∨ x ∈ pairs.map Prod.snd
  | [], _, _, h => Or.inl h
  | q :: rest, acc, x, h => by
    rw [List.foldl_cons] at h
    rcases foldl_set_mem rest _ x h with h1 | h2
    · rcases List.mem_or_eq_of_mem_set h1 with h3 | h4
      · exact Or.inl h3
      · exact Or.inr (by rw [List.map_cons]; exact h4 ▸ List.mem_cons_self _ _)
    · exact Or.inr (by rw [List.map_cons]; exact List.mem_cons_of_mem _ h2)

theorem replicate_getD_zero : ∀ (n j : ℕ), (List.replicate n (0 : ℤ)).getD j 0 = 0
  | 0, _ => rfl
  | n + 1, 0 => rfl
  | n + 1, j + 1 => by
    rw [List.replicate_succ, List.getD_cons_succ]
    exact replicate_getD_zero n j

theorem map_pair_const_fst (c : ℤ) :
    ∀ is : List ℕ, (is.map (fun j => (j, c))).map Prod.fst = is
  | [] => rfl
  | a :: rest => by
    simp only [List.map_cons]
    rw [map_pair_const_fst c rest]

theorem map_pair_const_snd (c : ℤ) :
    ∀ is : List ℕ, (is.map (fun j => (j, c))).map Prod.snd = is.map (fun _ => c)
  | [] => rfl
  | a :: rest => by
    simp only [List.map_cons]
    rw [map_pair_const_snd c rest]

theorem map_flatMap_general {A B C : Type} (g : B → C) (F : A → List B) :
    ∀ al : List A, (al.flatMap F).map g = al.flatMap (fun a => (F a).map g)
  | [] => rfl
  | a :: rest => by
    simp only [List.flatMap_cons, List.map_append]
    rw [map_flatMap_general g F rest]

theorem sum_flatMap_int {A : Type} (F : A → List ℤ) :
    ∀ al : List A, (al.flatMap F).sum = (al.map (fun a => (F a).sum)).sum
  | [] => rfl
  | a :: rest => by
    simp only [List.flatMap_cons, List.sum_append, List.map_cons, List.sum_cons]
    rw [sum_flatMap_int F rest]

theorem flatMap_fst_snd :
    ∀ alloc : List ((ℕ × List ℕ) × ℤ),
      alloc.flatMap (fun z => z.1.2) = (alloc.map Prod.fst).flatMap Prod.snd
  | [] => rfl
  | z :: rest => by
    simp only [List.flatMap_cons, List.map_cons]
    rw [flatMap_fst_snd rest]

theorem int_mul_fdiv_le (a : ℤ) (n : ℕ) (hn : 0 < n) :
    (n : ℤ) * (Int.fdiv a n) ≤ a := by
  rw [Int.fdiv_eq_ediv a (by positivity)]
  have h1 := Int.ediv_add_emod a n
  have h2 := Int.emod_nonneg a (by positivity : ((n : ℕ) : ℤ) ≠ 0)
  omega

theorem divide_feature_keys_perm (l : List ℕ) (u t m : ℕ) (r : ℤ) :
    (((allocGroups u t (sortGroupsDesc (groupConsec l (argsortAsc l))) r).flatMap
      (fun z => z.1.2.map (fun j => (j, Int.fdiv z.2 z.1.2.length * (m : ℤ))))).map
        Prod.fst).Perm (List.range l.length) := by
  rw [map_flatMap_general]
  simp only [map_pair_const_fst]
  rw [flatMap_fst_snd, allocGroups_map_fst]
  refine List.Perm.trans (List.Perm.flatMap_right Prod.snd (sortGroupsDesc_perm _)) ?_
  rw [groupConsec_flat]
  exact argsortAsc_perm l

theorem grps_mem_ne_nil (l : List ℕ) :
    ∀ g ∈ sortGroupsDesc (groupConsec l (argsortAsc l)), g.2 ≠ [] :=
  fun g hg =>
    groupConsec_ne_nil l (argsortAsc l) g ((sortGroupsDesc_perm _).mem_iff.mp hg)

theorem grps_mem_val (l : List ℕ) :
    ∀ g ∈ sortGroupsDesc (groupConsec l (argsortAsc l)), ∀ j ∈ g.2, l.getD j 0 = g.1 :=
  fun g hg =>
    groupConsec_mem_val l (argsortAsc l) g ((sortGroupsDesc_perm _).mem_iff.mp hg)

theorem grps_keys_nodup (l : List ℕ) :
    ((sortGroupsDesc (groupConsec l (argsortAsc l))).map Prod.fst).Nodup := by
  have h1 : ((groupConsec l (argsortAsc l)).map Prod.fst).Pairwise (· < ·) :=
    groupConsec_keys_pairwise l (argsortAsc l) (argsortAsc_pairwise l)
  have h2 : ((groupConsec l (argsortAsc l)).map Prod.fst).Nodup :=
    h1.imp Nat.ne_of_lt
  exact (((sortGroupsDesc_perm _).map Prod.fst).nodup_iff).mpr h2

theorem grps_ne_nil (l : List ℕ) (hne : l ≠ []) :
    sortGroupsDesc (groupConsec l (argsortAsc l)) ≠ [] := by
  intro h0
  have hperm : ((sortGroupsDesc (groupConsec l (argsortAsc l))).flatMap Prod.snd).Perm
      (List.range l.length) := by
    refine List.Perm.trans (List.Perm.flatMap_right Prod.snd (sortGroupsDesc_perm _)) ?_
    rw [groupConsec_flat]
    exact argsortAsc_perm l
  rw [h0] at hperm
  have hlen := hperm.length_eq
  simp only [List.flatMap_nil, List.length_nil, List.length_range] at hlen
  exact hne (List.length_eq_zero.mp hlen.symm)

theorem divide_feature_eq_Z (f : ℕ) (l : List ℕ) (m : ℕ) :
    divide_feature f l m = divide_featureZ f l m := by
  simp only [divide_feature, divide_featureZ]
  rw [allocGroups_eq_Z _ _ _ _ (grps_mem_ne_nil l)]

/-- C1 (amended): on every valid input the allocation sums to AT MOST
inFeature, and every entry is a multiple of minUnit.  (Exactness can fail:
see the counterexample.) -/
theorem divide_feature_sum_le_mult (f : ℕ) (l : List ℕ) (m : ℕ)
    (hm : 0 < m) (hdvd : m ∣ f) (hne : l ≠ []) (hpos : ∀ k ∈ l, 0 < k) :
    (divide_feature f l m).sum ≤ (f : ℤ) ∧
    ∀ x ∈ divide_feature f l m, (m : ℤ) ∣ x := by
  have hdf : divide_feature f l m =
      ((allocGroups (f / m) l.sum (sortGroupsDesc (groupConsec l (argsortAsc l)))
        (((f / m : ℕ) : ℤ) -
          ((sortGroupsDesc (groupConsec l (argsortAsc l))).map
            (fun g => (g.2.length : ℤ))).sum)).flatMap
        (fun z => z.1.2.map (fun j => (j, Int.fdiv z.2 z.1.2.length * (m : ℤ))))).foldl
        (fun a q => a.set q.1 q.2) (List.replicate l.length 0) := rfl
  have hkeys := divide_feature_keys_perm l (f / m) l.sum m
      (((f / m : ℕ) : ℤ) -
        ((sortGroupsDesc (groupConsec l (argsortAsc l))).map
          (fun g => (g.2.length : ℤ))).sum)
  set grps := sortGroupsDesc (groupConsec l (argsortAsc l)) with hgrpsdef
  set r0 : ℤ := ((f / m : ℕ) : ℤ) - (grps.map (fun g => (g.2.length : ℤ))).sum with hr0def
  set alloc := allocGroups (f / m) l.sum grps r0 with hallocdef
  set pairs := alloc.flatMap
    (fun z => z.1.2.map (fun j => (j, Int.fdiv z.2 z.1.2.length * (m : ℤ)))) with hpairsdef
  have hnodup : (pairs.map Prod.fst).Nodup :=
    hkeys.nodup_iff.mpr (List.nodup_range _)
  have hboundk : ∀ p ∈ pairs, p.1 < l.length := by
    intro p hp
    exact List.mem_range.mp (hkeys.mem_iff.mp (List.mem_map.mpr ⟨p, hp, rfl⟩))
  constructor
  · rw [hdf]
    rw [foldl_set_sum pairs _ hnodup (fun p hp =>
      ⟨by rw [List.length_replicate]; exact hboundk p hp, replicate_getD_zero _ _⟩)]
    have hz : (List.replicate l.length (0 : ℤ)).sum = 0 := by
      simp
    rw [hz, zero_add]
    have hstep1 : (pairs.map Prod.snd).sum =
        (alloc.map (fun z => ((z.1.2.length : ℕ) : ℤ) *
          (Int.fdiv z.2 z.1.2.length * (m : ℤ)))).sum := by
      rw [hpairsdef, map_flatMap_general]
      simp only [map_pair_const_snd]
      rw [sum_flatMap_int]
      congr 1
      apply List.map_congr_left
      intro z hz2
      rw [List.map_const', List.sum_replicate, nsmul_eq_mul]
    rw [hstep1]
    have hstep2 : (alloc.map (fun z => ((z.1.2.length : ℕ) : ℤ) *
        (Int.fdiv z.2 z.1.2.length * (m : ℤ)))).sum ≤
        (alloc.map (fun z => z.2 * (m : ℤ))).sum := by
      apply List.sum_le_sum
      intro z hzmem
      have hlp : 0 < z.1.2.length := by
        apply List.length_pos.mpr
        apply grps_mem_ne_nil l z.1
        rw [← hgrpsdef, ← allocGroups_map_fst (f / m) l.sum grps r0]
        exact List.mem_map.mpr ⟨z, hzmem, rfl⟩
      calc ((z.1.2.length : ℕ) : ℤ) * (Int.fdiv z.2 z.1.2.length * (m : ℤ))
          = ((z.1.2.length : ℕ) : ℤ) * Int.fdiv z.2 z.1.2.length * (m : ℤ) := by ring
      _ ≤ z.2 * (m : ℤ) :=
          mul_le_mul_of_nonneg_right (int_mul_fdiv_le z.2 z.1.2.length hlp)
            (by positivity)
    refine le_trans hstep2 ?_
    rw [List.sum_map_mul_right]
    rw [hallocdef, allocGroups_sum (f / m) l.sum grps r0 (grps_ne_nil l hne)]
    rw [hr0def]
    have hcancel : ((grps.map (fun g => (g.2.length : ℤ))).sum +
        (((f / m : ℕ) : ℤ) - (grps.map (fun g => (g.2.length : ℤ))).sum)) = ((f / m : ℕ) : ℤ) := by
      ring
    rw [hcancel]
    have hfm : (f / m) * m = f := Nat.div_mul_cancel hdvd
    exact le_of_eq (by exact_mod_cast hfm)
  · intro x hx
    rw [hdf] at hx
    rcases foldl_set_mem pairs _ x hx with h1 | h2
    · rw [List.eq_of_mem_replicate h1]
      exact dvd_zero _
    · rw [hpairsdef, map_flatMap_general] at h2
      simp only [map_pair_const_snd] at h2
      obtain ⟨z, hzmem, hxz⟩ := List.mem_flatMap.mp h2
      obtain ⟨j, hjmem, hjx⟩ := List.mem_map.mp hxz
      rw [← hjx]
      exact dvd_mul_left _ _

theorem divide_feature_getD_eq (f : ℕ) (l : List ℕ) (m : ℕ)
    (i j : ℕ) (hi : i < l.length) (hj : j < l.length)
    (hval : l.getD i 0 = l.getD j 0) :
    (divide_feature f l m).getD i 0 = (divide_feature f l m).getD j 0 := by
  have hdf : divide_feature f l m =
      ((allocGroups (f / m) l.sum (sortGroupsDesc (groupConsec l (argsortAsc l)))
        (((f / m : ℕ) : ℤ) -
          ((sortGroupsDesc (groupConsec l (argsortAsc l))).map
            (fun g => (g.2.length : ℤ))).sum)).flatMap
        (fun z => z.1.2.map (fun j => (j, Int.fdiv z.2 z.1.2.length * (m : ℤ))))).foldl
        (fun a q => a.set q.1 q.2) (List.replicate l.length 0) := rfl
  have hkeys := divide_feature_keys_perm l (f / m) l.sum m
      (((f / m : ℕ) : ℤ) -
        ((sortGroupsDesc (groupConsec l (argsortAsc l))).map
          (fun g => (g.2.length : ℤ))).sum)
  set grps := sortGroupsDesc (groupConsec l (argsortAsc l)) with hgrpsdef
  set r0 : ℤ := ((f / m : ℕ) : ℤ) - (grps.map (fun g => (g.2.length : ℤ))).sum with hr0def
  set alloc := allocGroups (f / m) l.sum grps r0 with hallocdef
  set pairs := alloc.flatMap
    (fun z => z.1.2.map (fun j => (j, Int.fdiv z.2 z.1.2.length * (m : ℤ)))) with hpairsdef
  have hnodup : (pairs.map Prod.fst).Nodup :=
    hkeys.nodup_iff.mpr (List.nodup_range _)
  have hfind : ∀ a : ℕ, a < l.length → ∃ z ∈ alloc, a ∈ z.1.2 ∧
      (divide_feature f l m).getD a 0 = Int.fdiv z.2 z.1.2.length * (m : ℤ) := by
    intro a ha
    have hak : a ∈ pairs.map Prod.fst := hkeys.mem_iff.mpr (List.mem_range.mpr ha)
    obtain ⟨p, hpmem, hpfst⟩ := List.mem_map.mp hak
    obtain ⟨z1, hz1mem, hpz1⟩ := List.mem_flatMap.mp hpmem
    obtain ⟨a1, ha1mem, ha1p⟩ := List.mem_map.mp hpz1
    refine ⟨z1, hz1mem, ?_, ?_⟩
    · rw [show a = a1 by rw [← hpfst, ← ha1p]]
      exact ha1mem
    · have hgd : (divide_feature f l m).getD p.1 0 = p.2 := by
        rw [hdf]
        exact foldl_set_getD pairs _ hnodup p hpmem
          (by rw [List.length_replicate, hpfst]; exact ha)
      rw [hpfst] at hgd
      rw [hgd, ← ha1p]
  have hgrpmem : ∀ z ∈ alloc, z.1 ∈ grps := by
    intro z hz
    rw [← allocGroups_map_fst (f / m) l.sum grps r0]
    exact List.mem_map.mpr ⟨z, hz, rfl⟩
  have hvalz : ∀ z ∈ alloc, ∀ a ∈ z.1.2, l.getD a 0 = z.1.1 := by
    intro z hz a hamem
    exact grps_mem_val l z.1 (hgrpmem z hz) a hamem
  have hnodupkeys : (alloc.map (fun z => z.1.1)).Nodup := by
    have h1 : ((alloc.map Prod.fst).map Prod.fst).Nodup := by
      rw [hallocdef, allocGroups_map_fst]
      exact grps_keys_nodup l
    rw [List.map_map] at h1
    exact h1
  obtain ⟨z1, hz1mem, hiz1, hival⟩ := hfind i hi
  obtain ⟨z2, hz2mem, hjz2, hjval⟩ := hfind j hj
  have hkeq : z1.1.1 = z2.1.1 := by
    rw [← hvalz z1 hz1mem i hiz1, ← hvalz z2 hz2mem j hjz2]
    exact hval
  have hz12 : z1 = z2 := List.inj_on_of_nodup_map hnodupkeys hz1mem hz2mem hkeq
  rw [hival, hjval, hz12]

/-- C8: on every valid input, any two consumers with equal targetParams
values receive equal allocation entries. -/
theorem divide_feature_equal_targets (f : ℕ) (l : List ℕ) (m : ℕ)
    (hm : 0 < m) (hdvd : m ∣ f) (hne : l ≠ []) (hpos : ∀ k ∈ l, 0 < k)
    (i j : ℕ) (hi : i < l.length) (hj : j < l.length)
    (hval : l.getD i 0 = l.getD j 0) :
    (divide_feature f l m).getD i 0 = (divide_feature f l m).getD j 0 :=
  divide_feature_getD_eq f l m i j hi hj hval

/-- C7 (amended): a consumer never receives a strictly smaller allocation
than another consumer with the same targetParams; across distinct
targetParams values the code does not guarantee monotonicity (see the
counterexample). -/
theorem divide_feature_no_smaller_when_equal (f : ℕ) (l : List ℕ) (m : ℕ)
    (hm : 0 < m) (hdvd : m ∣ f) (hne : l ≠ []) (hpos : ∀ k ∈ l, 0 < k)
    (i j : ℕ) (hi : i < l.length) (hj : j < l.length)
    (hval : l.getD i 0 = l.getD j 0) :
    ¬((divide_feature f l m).getD i 0 < (divide_feature f l m).getD j 0) := by
  rw [divide_feature_getD_eq f l m i j hi hj hval]
  exact lt_irrefl _

/-- C1 counterexample: in_feature = 3, targetParams = [1, 1], min_unit = 1
is a valid input (3 is divisible by 1, both targets positive), yet the
returned allocation is [1, 1], which sums to 2, not 3: the single group
holds 3 units, and 3 // 2 * 1 = 1 per consumer drops one unit. -/
theorem divide_feature_sum_counterexample :
    divide_feature 3 [1, 1] 1 = [1, 1] ∧
    (divide_feature 3 [1, 1] 1).sum = 2 := by
  rw [divide_feature_eq_Z]
  exact ⟨by decide, by decide⟩

/-- C7 counterexample: in_feature = 5, targetParams = [3, 2, 1],
min_unit = 1 is valid, and the allocation is [2, 1, 2]: consumer 1
(targetParams 2) receives 1, strictly less than consumer 2 (targetParams 1),
which absorbs the remainder and receives 2. -/
theorem divide_feature_monotonicity_counterexample :
    divide_feature 5 [3, 2, 1] 1 = [2, 1, 2] ∧
    [3, 2, 1].getD 2 0 < [3, 2, 1].getD 1 0 ∧
    (divide_feature 5 [3, 2, 1] 1).getD 1 0 < (divide_feature 5 [3, 2, 1] 1).getD 2 0 := by
  rw [divide_feature_eq_Z]
  exact ⟨by decide, by decide, by decide⟩

/-- Witness for C1 (amended) on the spec's own example (64, [10,10,20], 8). -/
theorem divide_feature_sum_le_mult_witness :
    (divide_feature 64 [10, 10, 20] 8).sum ≤ (64 : ℤ) :=
  (divide_feature_sum_le_mult 64 [10, 10, 20] 8 (by decide) (by decide)
    (by decide) (by decide)).1

/-- Witness for C8 on the spec's own example: the two consumers with
targetParams 10 receive equal entries. -/
theorem divide_feature_equal_targets_witness :
    (divide_feature 64 [10, 10, 20] 8).getD 0 0 =
      (divide_feature 64 [10, 10, 20] 8).getD 1 0 :=
  divide_feature_equal_targets 64 [10, 10, 20] 8 (by decide) (by decide)
    (by decide) (by decide) 0 1 (by decide) (by decide) (by decide)

/-- Witness for C7 (amended) at (16, [5, 5], 8). -/
theorem divide_feature_no_smaller_when_equal_witness :
    ¬((divide_feature 16 [5, 5] 8).getD 0 0 < (divide_feature 16 [5, 5] 8).getD 1 0) :=
  divide_feature_no_smaller_when_equal 16 [5, 5] 8 (by decide) (by decide)
    (by decide) (by decide) 0 1 (by decide) (by decide) (by decide)
